import Mathlib

/-!
Verification of the `mergneh` running-text engine (`src/running_text.rs`,
`src/utils.rs`) against its natural-language specification.

Strings are modelled as `List Char`; all offsets are UTF-8 byte offsets, as in
the Rust source (`str::len`, `char::len_utf8`, byte-indexed slicing).  A Rust
panic (out-of-bounds or non-boundary slice, `usize` underflow in debug builds,
division by zero, `unreachable!()`) is modelled by `Option.none`.
-/

namespace Mergneh

/-- Byte length of one scalar value, as Rust `char::len_utf8`. -/
abbrev charSize (c : Char) : Nat := c.utf8Size

/-- Byte length of a string, as Rust `str::len`. -/
def utf8Len : List Char → Nat
  | [] => 0
  | c :: t => charSize c + utf8Len t

/-- `s[n..]` for a byte offset `n`: `none` models the Rust slicing panic when
`n` is not a character boundary or exceeds the length. -/
def byteDrop : List Char → Nat → Option (List Char)
  | s, 0 => some s
  | [], _ + 1 => none
  | c :: t, n + 1 =>
    if n + 1 < charSize c then none else byteDrop t (n + 1 - charSize c)

/-- `s[..n]` for a byte offset `n`: `none` models the Rust slicing panic. -/
def byteTake : List Char → Nat → Option (List Char)
  | _, 0 => some []
  | [], _ + 1 => none
  | c :: t, n + 1 =>
    if n + 1 < charSize c then none
    else (byteTake t (n + 1 - charSize c)).map (c :: ·)

/-- `s[l..r]`: Rust panics when `r < l`, when an end is not a character
boundary, or when `r` exceeds the length. -/
def byteSlice (s : List Char) (l r : Nat) : Option (List Char) :=
  if r < l then none else (byteDrop s l).bind (fun t => byteTake t (r - l))

/-- `o` is a character boundary of `s` (including the end offset). -/
def isBoundary (s : List Char) (o : Nat) : Bool := (byteDrop s o).isSome

/-- Byte size of the character starting at offset `o` (0 at the end or at an
invalid offset). -/
def sizeAt (s : List Char) (o : Nat) : Nat :=
  match byteDrop s o with
  | some (c :: _) => charSize c
  | _ => 0

/-- Rust `str::floor_char_boundary`: the largest character boundary not
exceeding `i` (the length if `i` overshoots). -/
def floorCharBoundary (s : List Char) (i : Nat) : Nat :=
  go 0 s
where
  go (b : Nat) : List Char → Nat
    | [] => b
    | c :: t => if b + charSize c ≤ i then go (b + charSize c) t else b

/-- All character boundaries of `s` in ascending order, end offset included:
what Rust `str::match_indices` visits for the empty pattern. -/
def allBoundaries : List Char → Nat → List Nat
  | [], off => [off]
  | c :: t, off => off :: allBoundaries t (off + charSize c)

/-- Byte offsets of the non-overlapping left-to-right occurrences of a
non-empty pattern, as Rust `str::match_indices`.  `skip` counts characters
still covered by the previous match. -/
def matchIndicesGo (pat : List Char) : List Char → Nat → Nat → List Nat
  | [], _, _ => []
  | c :: t, off, skip + 1 => matchIndicesGo pat t (off + charSize c) skip
  | c :: t, off, 0 =>
    if pat.isPrefixOf (c :: t) then
      off :: matchIndicesGo pat t (off + charSize c) (pat.length - 1)
    else
      matchIndicesGo pat t (off + charSize c) 0

/-- Rust `str::match_indices` (byte positions only). -/
def matchIndices (s pat : List Char) : List Nat :=
  if pat.isEmpty then allBoundaries s 0 else matchIndicesGo pat s 0 0

/-- Rust `String::replace_range(l..r, repl)`; `none` models its panics. -/
def replaceRange (s : List Char) (l r : Nat) (repl : List Char) :
    Option (List Char) :=
  if r < l then none
  else
    (byteTake s l).bind fun pre =>
      (byteDrop s r).map fun post => pre ++ repl ++ post

/-- `BTreeMap<usize, usize>` as an association list sorted by key. -/
abbrev BMap := List (Nat × Nat)

/-- `BTreeMap::get`. -/
def mlookup : BMap → Nat → Option Nat
  | [], _ => none
  | (a, b) :: t, k => if k = a then some b else mlookup t k

/-- `BTreeMap::insert` (keeps the list sorted, replaces an existing key). -/
def minsert : BMap → Nat → Nat → BMap
  | [], k, v => [(k, v)]
  | (a, b) :: t, k, v =>
    if k < a then (k, v) :: (a, b) :: t
    else if k = a then (k, v) :: t
    else (a, b) :: minsert t k v

/-- `BTreeMap::extend`: insert the pairs in iteration order. -/
def mextend (m : BMap) (l : List (Nat × Nat)) : BMap :=
  l.foldl (fun acc p => minsert acc p.1 p.2) m

/-! ## `RunningText` construction (`RunningText::new`) -/

/-- The running text: backing string, width, repeat flag and the two
escape-boundary maps, as the Rust struct `RunningText`. -/
structure RunningText where
  s : List Char
  w : Nat
  repeat_ : Bool
  left_escape_bounds : BMap
  right_escape_bounds : BMap
deriving DecidableEq

/-- The amount subtracted from the character count in `RunningText::new`:
for each rule, `src.len().checked_sub(dest.len()).filter(|l| *l > 0)`,
summed (byte lengths, once per rule). -/
def ccShrink (escapes : List (List Char × List Char)) : Nat :=
  (escapes.map fun p =>
    if utf8Len p.2 < utf8Len p.1 then utf8Len p.1 - utf8Len p.2 else 0).sum

/-- The per-rule replacement loop of `RunningText::new` (lines 24–39): for
each rule, find the matches, map them to their positions in the substituted
string, perform the sequential `replace_range` calls, and (when `repeat`)
record the run bounds of non-empty replacements in both maps. -/
def applyEscapesLoop (rep : Bool) :
    List (List Char × List Char) → List Char → BMap → BMap →
    Option (List Char × BMap × BMap)
  | [], s, lb, rb => some (s, lb, rb)
  | (src, dest) :: esc, s, lb, rb =>
    let srcB := utf8Len src
    let destB := utf8Len dest
    match (matchIndices s src).enum.mapM (fun p =>
        let v : Int := (p.2 : Int) + (p.1 : Int) * ((destB : Int) - (srcB : Int))
        if v < 0 then none else some v.toNat) with
    | none => none
    | some adj =>
      match adj.foldlM (fun st a => replaceRange st a (a + srcB) dest) s with
      | none => none
      | some s' =>
        let lb' := if rep && !dest.isEmpty then
            mextend lb (adj.map fun a => (a, destB)) else lb
        let rb' := if rep && !dest.isEmpty then
            mextend rb (adj.map fun a => (a + destB, destB)) else rb
        applyEscapesLoop rep esc s' lb' rb'

/-- The `for _ in 0..q { string.extend_from_within(..); }` loop: each pass
appends a copy of the whole current string, doubling it. -/
def doubleTimes : Nat → List Char → List Char
  | 0, s => s
  | q + 1, s => doubleTimes q (s ++ s)

/-- The left-bounds re-scan (lines 52–57): record every occurrence of each
non-empty replacement string in the replicated text. -/
def rescanLeft (s : List Char) (escapes : List (List Char × List Char))
    (m : BMap) : BMap :=
  escapes.foldl (fun acc p =>
    if p.2.isEmpty then acc
    else mextend acc ((matchIndices s p.2).map fun i => (i, utf8Len p.2))) m

/-- The right-bounds re-scan (lines 58–63), keyed at each run's end. -/
def rescanRight (s : List Char) (escapes : List (List Char × List Char))
    (m : BMap) : BMap :=
  escapes.foldl (fun acc p =>
    if p.2.isEmpty then acc
    else mextend acc
      ((matchIndices s p.2).map fun i => (i + utf8Len p.2, utf8Len p.2))) m

/-- The `for _ in 0..r` walk (lines 65–83) over `string.char_indices()`:
advance `r` logical units from offset 0 (a recorded run advances the
iterator by the run's byte length in characters), inserting bounds for the
run copies that will land in the appended prefix.  `L` is the byte length of
the replicated string; `rest` is the list of characters not yet consumed by
the `CharIndices` iterator, and `off` its byte offset. -/
def walkLoop (L : Nat) : Nat → Nat → List Char → BMap → BMap →
    Option (Nat × BMap × BMap)
  | 0, off, _, lb, rb => some (off, lb, rb)
  | r + 1, off, rest, lb, rb =>
    match mlookup lb off with
    | some 0 => none
    | some (len + 1) =>
      walkLoop L r (off + utf8Len (rest.take (len + 1))) (rest.drop (len + 1))
        (minsert lb (off + L) (len + 1))
        (minsert rb (off + L + (len + 1)) (len + 1))
    | none =>
      match rest with
      | [] => walkLoop L r off [] lb rb
      | c :: t => walkLoop L r (off + charSize c) t lb rb

/-- `RunningText::new`.  `none` models a panic: the `usize` underflow of
`char_count -= …` or `w - 1`, the division by zero when `char_count` is 0,
or an out-of-bounds `replace_range`. -/
def RunningText.new (string : List Char) (w : Nat) (repeat_ : Bool)
    (escapes : List (List Char × List Char)) : Option RunningText :=
  let cc0 := string.length
  let shrink := ccShrink escapes
  if cc0 < shrink then none
  else
    let char_count := cc0 - shrink
    let rep := repeat_ || decide (w < char_count)
    if w = 0 then none
    else if char_count = 0 then none
    else
      let q := (w - 1) / char_count
      let r := (w - 1) % char_count
      match applyEscapesLoop rep escapes string [] [] with
      | none => none
      | some (s1, lb1, rb1) =>
        if rep = false then some ⟨s1, w, false, lb1, rb1⟩
        else
          let s2 := doubleTimes q s1
          let lb2 := rescanLeft s2 escapes lb1
          let rb2 := rescanRight s2 escapes rb1
          match walkLoop (utf8Len s2) r 0 s2 lb2 rb2 with
          | none => none
          | some (off, lb3, rb3) =>
            match byteTake s2 off with
            | none => none
            | some pre => some ⟨s2 ++ pre, w, true, lb3, rb3⟩

/-! ## The cursor (`RunIndex`) and the window iterator (`RunIter`) -/

/-- The mutable part of a `RunIndex` cursor (its string and map references
are passed to each operation). -/
structure RunIndexSt where
  offset : Nat
  atEnd : Bool
deriving DecidableEq

/-- `RunIndex::next`: return the current offset, then advance by the run
length recorded at it in the left map, or else by the current character's
byte length; probing an empty remainder sets the exhausted flag instead.
`none` models the panic of slicing at an invalid offset. -/
def runNext (s : List Char) (lb : BMap) (ri : RunIndexSt) :
    Option (Option Nat × RunIndexSt) :=
  if ri.atEnd then some (none, ri)
  else
    match byteDrop s ri.offset with
    | none => none
    | some [] => some (some ri.offset, ⟨ri.offset, true⟩)
    | some (c :: _) =>
      match mlookup lb ri.offset with
      | some len => some (some ri.offset, ⟨ri.offset + len, false⟩)
      | none => some (some ri.offset, ⟨ri.offset + charSize c, false⟩)

/-- `RunIndex::next_back`: symmetric to `runNext`, consulting the right map
and stepping the offset down.  A recorded length exceeding the offset models
the debug-build `usize` underflow panic (`none`). -/
def runNextBack (s : List Char) (rb : BMap) (ri : RunIndexSt) :
    Option (Option Nat × RunIndexSt) :=
  if ri.atEnd then some (none, ri)
  else
    match byteTake s ri.offset with
    | none => none
    | some [] => some (some ri.offset, ⟨ri.offset, true⟩)
    | some (c :: t) =>
      match mlookup rb ri.offset with
      | some len =>
        if ri.offset < len then none
        else some (some ri.offset, ⟨ri.offset - len, false⟩)
      | none =>
        some (some ri.offset, ⟨ri.offset - charSize (t.getLastD c), false⟩)

/-- `Iterator::advance_by(n)`: call `next` up to `n` times; the `Bool` is
`true` for `Ok(())`, `false` when a `None` cut the advance short. -/
def runAdvanceBy (s : List Char) (lb : BMap) :
    Nat → RunIndexSt → Option (Bool × RunIndexSt)
  | 0, ri => some (true, ri)
  | n + 1, ri =>
    match runNext s lb ri with
    | none => none
    | some (none, ri') => some (false, ri')
    | some (some _, ri') => runAdvanceBy s lb n ri'

/-- `DoubleEndedIterator::advance_back_by(n)`. -/
def runAdvanceBackBy (s : List Char) (rb : BMap) :
    Nat → RunIndexSt → Option (Bool × RunIndexSt)
  | 0, ri => some (true, ri)
  | n + 1, ri =>
    match runNextBack s rb ri with
    | none => none
    | some (none, ri') => some (false, ri')
    | some (some _, ri') => runAdvanceBackBy s rb n ri'

/-- The window iterator `RunIter`: the backing text, the two reset anchors,
the two maps and the two live cursors. -/
structure RunIter where
  s : List Char
  init_left_off : Nat
  init_right_off : Nat
  left_escape_bounds : BMap
  right_escape_bounds : BMap
  left_off : RunIndexSt
  right_off : RunIndexSt
deriving DecidableEq

/-- `RunIter::next`: step both cursors forward; on right-cursor exhaustion
reset to `(0, init_right_off)` and step again.  The value also carries the
emitted byte range `[l, r)`.  `none` models a panic — a bad slice, the
`unwrap()` in the wrap branch, or the `unreachable!()` arm. -/
def RunIter.next (it : RunIter) : Option (((Nat × Nat) × List Char) × RunIter) :=
  match runNext it.s it.left_escape_bounds it.left_off with
  | none => none
  | some (oL, l') =>
    match runNext it.s it.left_escape_bounds it.right_off with
    | none => none
    | some (oR, r') =>
      match oL, oR with
      | some l, some r =>
        match byteSlice it.s l r with
        | none => none
        | some win => some (((l, r), win), { it with left_off := l', right_off := r' })
      | some _, none =>
        match runNext it.s it.left_escape_bounds ⟨0, false⟩ with
        | none => none
        | some (oL2, l2') =>
          match oL2 with
          | none => none
          | some l2 =>
            match runNext it.s it.left_escape_bounds ⟨it.init_right_off, false⟩ with
            | none => none
            | some (oR2, r2') =>
              match oR2 with
              | none => none
              | some r2 =>
                match byteSlice it.s l2 r2 with
                | none => none
                | some win =>
                  some (((l2, r2), win), { it with left_off := l2', right_off := r2' })
      | _, _ => none

/-- `RunIter::next_back`: the mirror operation, resetting to
`(init_left_off, s.len())` on left-cursor exhaustion. -/
def RunIter.nextBack (it : RunIter) : Option (((Nat × Nat) × List Char) × RunIter) :=
  match runNextBack it.s it.right_escape_bounds it.left_off with
  | none => none
  | some (oL, l') =>
    match runNextBack it.s it.right_escape_bounds it.right_off with
    | none => none
    | some (oR, r') =>
      match oL, oR with
      | some l, some r =>
        match byteSlice it.s l r with
        | none => none
        | some win => some (((l, r), win), { it with left_off := l', right_off := r' })
      | none, some _ =>
        match runNextBack it.s it.right_escape_bounds ⟨it.init_left_off, false⟩ with
        | none => none
        | some (oL2, l2') =>
          match oL2 with
          | none => none
          | some l2 =>
            match runNextBack it.s it.right_escape_bounds ⟨utf8Len it.s, false⟩ with
            | none => none
            | some (oR2, r2') =>
              match oR2 with
              | none => none
              | some r2 =>
                match byteSlice it.s l2 r2 with
                | none => none
                | some win =>
                  some (((l2, r2), win), { it with left_off := l2', right_off := r2' })
      | _, _ => none

/-- The anchor block shared verbatim by `RunningText::iter` and
`RunningText::iter_at` (repeat mode): walk `w` units back from the end for
the left anchor (`unwrap_or_default`), `w` units forward from 0 for the
right anchor (`unwrap_or(s.len())`). -/
def RunningText.anchors (rt : RunningText) : Option (Nat × Nat) :=
  match runAdvanceBackBy rt.s rt.right_escape_bounds rt.w
      ⟨utf8Len rt.s, false⟩ with
  | none => none
  | some (okL, stL) =>
    match (if okL then
        match runNextBack rt.s rt.right_escape_bounds stL with
        | none => none
        | some (v, _) => some (v.getD 0)
      else some 0) with
    | none => none
    | some left =>
      match runAdvanceBy rt.s rt.left_escape_bounds rt.w ⟨0, false⟩ with
      | none => none
      | some (okR, stR) =>
        match (if okR then
            match runNext rt.s rt.left_escape_bounds stR with
            | none => none
            | some (v, _) => some (v.getD (utf8Len rt.s))
          else some (utf8Len rt.s)) with
        | none => none
        | some right => some (left, right)

/-- `RunningText::iter`. -/
def RunningText.iter (rt : RunningText) : Option RunIter :=
  if rt.repeat_ = false then
    some ⟨rt.s, 0, utf8Len rt.s, rt.left_escape_bounds, rt.right_escape_bounds,
      ⟨0, false⟩, ⟨utf8Len rt.s, false⟩⟩
  else
    match rt.anchors with
    | none => none
    | some (la, ra) =>
      some ⟨rt.s, la, ra, rt.left_escape_bounds, rt.right_escape_bounds,
        ⟨0, false⟩, ⟨ra, false⟩⟩

/-- The offset snap of `RunningText::iter_at`: `idx` moved to the start of
the recorded run containing it (first match in ascending key order), or else
down to the nearest character boundary. -/
def iterAtSnap (rt : RunningText) (idx : Nat) : Nat :=
  (rt.left_escape_bounds.findSome? fun p =>
    if p.1 ≤ idx ∧ idx < p.1 + p.2 then some p.1 else none).getD
    (floorCharBoundary rt.s idx)

/-- `RunningText::iter_at`: as `iter`, but the left cursor starts at `idx`
snapped by `iterAtSnap`; when a full window no longer fits there, fall back
to offset 0 with the right anchor. -/
def RunningText.iter_at (rt : RunningText) (idx : Nat) : Option RunIter :=
  if rt.repeat_ = false then
    some ⟨rt.s, 0, utf8Len rt.s, rt.left_escape_bounds, rt.right_escape_bounds,
      ⟨0, false⟩, ⟨utf8Len rt.s, false⟩⟩
  else
    match rt.anchors with
    | none => none
    | some (la, ra) =>
      match runAdvanceBy rt.s rt.left_escape_bounds rt.w
          ⟨iterAtSnap rt idx, false⟩ with
      | none => none
      | some (okA, stA) =>
        match (if okA then
            match runNext rt.s rt.left_escape_bounds stA with
            | none => none
            | some (v, _) => some v
          else some (none : Option Nat)) with
        | none => none
        | some (some oR) =>
          some ⟨rt.s, la, ra, rt.left_escape_bounds, rt.right_escape_bounds,
            ⟨iterAtSnap rt idx, false⟩, ⟨oR, false⟩⟩
        | some none =>
          some ⟨rt.s, la, ra, rt.left_escape_bounds, rt.right_escape_bounds,
            ⟨0, false⟩, ⟨ra, false⟩⟩

/-! ## Generic iteration of a fallible stepper -/

/-- Iterate a fallible stepper `n` times, keeping the final state. -/
def iterN {β σ : Type} (f : σ → Option (β × σ)) : Nat → σ → Option σ
  | 0, st => some st
  | n + 1, st =>
    match f st with
    | none => none
    | some (_, st') => iterN f n st'

/-- The output of call `n + 1` (after `n` completed calls). -/
def outN {β σ : Type} (f : σ → Option (β × σ)) (n : Nat) (st : σ) : Option β :=
  (iterN f n st).bind fun st' => (f st').map Prod.fst

theorem iterN_add {β σ : Type} (f : σ → Option (β × σ)) (a b : Nat) (st : σ) :
    iterN f (a + b) st = (iterN f a st).bind (iterN f b) := by
  induction a generalizing st with
  | zero => simp [iterN]
  | succ k ih =>
    have hab : k + 1 + b = (k + b) + 1 := by omega
    rw [hab]
    show (match f st with
      | none => none
      | some (_, st') => iterN f (k + b) st') = _
    cases h : f st with
    | none => simp [iterN, h]
    | some p => simp [iterN, h, ih p.2]

theorem iterN_period {β σ : Type} (f : σ → Option (β × σ)) (st : σ) (a p : Nat)
    (h : iterN f (a + p) st = iterN f a st) :
    ∀ k, iterN f (a + p + k) st = iterN f (a + k) st := by
  intro k
  rw [iterN_add f (a + p) k st, h, ← iterN_add]

/-- If the iterator state recurs (`a + p` steps lead to the same state as `a`
steps, `p > 0`) and a predicate holds of the first `a + p` outputs, it holds
of every output. -/
theorem outN_all {β σ : Type} (P : Option β → Prop) (f : σ → Option (β × σ))
    (st : σ) (a p : Nat) (hp : 0 < p)
    (hper : iterN f (a + p) st = iterN f a st)
    (hbase : ∀ m, m < a + p → P (outN f m st)) :
    ∀ n, P (outN f n st) := by
  intro n
  induction n using Nat.strong_induction_on with
  | _ n ih =>
    by_cases hn : n < a + p
    · exact hbase n hn
    · have hk : n = a + p + (n - (a + p)) := by omega
      have hst : iterN f n st = iterN f (a + (n - (a + p))) st := by
        calc iterN f n st = iterN f (a + p + (n - (a + p))) st := by rw [← hk]
          _ = iterN f (a + (n - (a + p))) st := iterN_period f st a p hper _
      have hout : outN f n st = outN f (a + (n - (a + p))) st := by
        unfold outN; rw [hst]
      rw [hout]
      exact ih _ (by omega)

/-! ## C1: escape atomicity on `"?#@!$%^^&*()"`, rule `"&" → "&amp"`, width 12 -/

def c1s : List Char := "?#@!$%^^&*()".toList

def c1esc : List (List Char × List Char) := [("&".toList, "&amp".toList)]

/-- The iterator of the C1 configuration (the `getD` default is never used:
construction succeeds, as the claim theorem's first conjunct records). -/
def c1it : RunIter :=
  ((RunningText.new c1s 12 true c1esc).bind RunningText.iter).getD
    ⟨[], 0, 0, [], [], ⟨0, false⟩, ⟨0, false⟩⟩

/-- The recorded replacement runs of the C1 configuration. -/
def c1runs : BMap :=
  ((RunningText.new c1s 12 true c1esc).map RunningText.left_escape_bounds).getD []

/-- `o` lies strictly inside a run of `m`. -/
def insideRun (m : BMap) (o : Nat) : Bool :=
  m.any fun p => decide (p.1 < o) && decide (o < p.1 + p.2)

/-- Atomicity of one emitted window: the window exists, neither end of its
byte range lies strictly inside a recorded run, and the window contains
`"&amp"` as a contiguous substring or none of its characters at all. -/
def c1atomic : Option ((Nat × Nat) × List Char) → Bool
  | none => false
  | some ((l, r), win) =>
    !insideRun c1runs l && !insideRun c1runs r &&
      (decide (List.IsInfix "&amp".toList win) ||
        win.all fun c => !("&amp".toList.contains c))

/-- C1 (escape atomicity): for content `"?#@!$%^^&*()"` with the single rule
`"&" → "&amp"`, width 12, repeat, construction and iterator creation succeed,
and for every `n` the window of the `(n+1)`-st `next()` call and of the
`(n+1)`-st `next_back()` call exists, has neither end of its byte range
strictly inside a recorded replacement run, and contains `"&amp"` either as a
whole contiguous substring or not at all (no character of it).  Proved from
the recurrence of the iterator state (period 12) plus a finite check of one
full cycle in each direction. -/
theorem c1_escape_atomicity :
    (RunningText.new c1s 12 true c1esc).bind RunningText.iter = some c1it ∧
    ∀ n, c1atomic (outN RunIter.next n c1it) = true ∧
      c1atomic (outN RunIter.nextBack n c1it) = true := by
  refine ⟨rfl, fun n => ⟨?_, ?_⟩⟩
  · exact outN_all (fun o => c1atomic o = true) RunIter.next c1it 1 12
      (by omega) (by decide) (by decide) n
  · exact outN_all (fun o => c1atomic o = true) RunIter.nextBack c1it 2 12
      (by omega) (by decide) (by decide) n

/-! ## C6: full-cycle closure on `"I am a running text|"`, width 12 -/

def c6s : List Char := "I am a running text|".toList

/-- The iterator of the C6 configuration. -/
def c6it : RunIter :=
  ((RunningText.new c6s 12 true []).bind RunningText.iter).getD
    ⟨[], 0, 0, [], [], ⟨0, false⟩, ⟨0, false⟩⟩

/-- C6 (full-cycle closure): for content `"I am a running text"` with
separator `"|"` appended (backing content `"I am a running text|"`), width
12, no rules, repeat: the 1st `next()` call yields `"I am a runni"`, and the
21st call — i.e. after exactly `full_content_char_len` = 21 total steps,
counting the first — again yields `"I am a runni"` (the emitted byte range
`[0, 12)` also recurs).  `outN f n` is the output of call `n + 1`. -/
theorem c6_full_cycle_closure :
    (RunningText.new c6s 12 true []).bind RunningText.iter = some c6it ∧
    outN RunIter.next 0 c6it = some ((0, 12), "I am a runni".toList) ∧
    outN RunIter.next 20 c6it = some ((0, 12), "I am a runni".toList) :=
  ⟨rfl, rfl, rfl⟩

/-! ## Lemmas on byte offsets -/

theorem byteDrop_zero (s : List Char) : byteDrop s 0 = some s := by
  cases s <;> rfl

theorem byteTake_zero (s : List Char) : byteTake s 0 = some [] := by
  cases s <;> rfl

theorem byteDrop_utf8Len (s : List Char) : byteDrop s (utf8Len s) = some [] := by
  induction s with
  | nil => rfl
  | cons c t ih =>
    have hc : 0 < charSize c := c.utf8Size_pos
    rcases Nat.exists_eq_add_of_lt hc with ⟨k, hk⟩
    show byteDrop (c :: t) (charSize c + utf8Len t) = some []
    have h3 : charSize c + utf8Len t = (k + utf8Len t) + 1 := by omega
    rw [h3]
    simp only [byteDrop]
    have h1 : ¬ (k + utf8Len t + 1 < charSize c) := by omega
    rw [if_neg h1]
    have h2 : k + utf8Len t + 1 - charSize c = utf8Len t := by omega
    rw [h2, ih]

theorem byteTake_utf8Len (s : List Char) : byteTake s (utf8Len s) = some s := by
  induction s with
  | nil => rfl
  | cons c t ih =>
    have hc : 0 < charSize c := c.utf8Size_pos
    rcases Nat.exists_eq_add_of_lt hc with ⟨k, hk⟩
    show byteTake (c :: t) (charSize c + utf8Len t) = some (c :: t)
    have h3 : charSize c + utf8Len t = (k + utf8Len t) + 1 := by omega
    rw [h3]
    simp only [byteTake]
    have h1 : ¬ (k + utf8Len t + 1 < charSize c) := by omega
    rw [if_neg h1]
    have h2 : k + utf8Len t + 1 - charSize c = utf8Len t := by omega
    rw [h2, ih]
    rfl

theorem byteDrop_head (c : Char) (t : List Char) :
    byteDrop (c :: t) (charSize c) = some t := by
  have hc : 0 < charSize c := c.utf8Size_pos
  rcases Nat.exists_eq_add_of_lt hc with ⟨k, hk⟩
  have h3 : charSize c = k + 1 := by omega
  rw [h3]
  simp only [byteDrop]
  have h1 : ¬ (k + 1 < charSize c) := by omega
  rw [if_neg h1]
  have h2 : k + 1 - charSize c = 0 := by omega
  rw [h2, byteDrop_zero]

theorem byteSlice_full (s : List Char) : byteSlice s 0 (utf8Len s) = some s := by
  unfold byteSlice
  rw [if_neg (Nat.not_lt_zero _), byteDrop_zero]
  simp [byteTake_utf8Len]

/-! ## C9: steady-state iteration reaches the `unreachable!()` arm -/

/-- The iterator of the C9 failing input: content `"aa"`, rule `"a" → ""`,
width 1, repeat.  Construction succeeds and leaves an empty backing text
(`char_count` is 1, but both characters are deleted). -/
def c9it : RunIter :=
  ((RunningText.new "aa".toList 1 true [("a".toList, [])]).bind
    RunningText.iter).getD ⟨[], 0, 0, [], [], ⟨0, false⟩, ⟨0, false⟩⟩

/-- C9 (code bug witness): for the validly constructed input above, the
backing text is empty, the first `next()` and `next_back()` both yield the
empty window with both cursors exhausted, and the second call of either
returns `none` — the model of the `unreachable!()` arm of `RunIter::next` /
`next_back` (both cursors exhausted in the same call), i.e. a panic during
steady-state iteration. -/
theorem c9_unreachable_reached :
    (RunningText.new "aa".toList 1 true [("a".toList, [])]).map
      RunningText.s = some [] ∧
    (RunningText.new "aa".toList 1 true [("a".toList, [])]).bind
      RunningText.iter = some c9it ∧
    outN RunIter.next 0 c9it = some ((0, 0), []) ∧
    outN RunIter.next 1 c9it = none ∧
    outN RunIter.nextBack 1 c9it = none :=
  ⟨rfl, rfl, rfl, rfl, rfl⟩

/-! ## C2: construction is not fallible; it panics or accepts instead -/

/-- C2 counterexample: a rule with an empty pattern is accepted —
construction succeeds (the claim says every such call is rejected with a
`ConstructionError`).  The replacement is inserted at every character
boundary of the content. -/
theorem c2_counterexample :
    (RunningText.new "ab".toList 2 true [([], "x".toList)]).map
      RunningText.s = some "xaxbxx".toList :=
  rfl

/-- C2 (amended): `RunningText::new` returns `Self`, not a `Result` — there
is no `ConstructionError` in the code.  Empty content panics for every width,
repeat flag and rule list (`usize` underflow or division by zero), width 0
panics for every content, repeat flag and rule list, and an empty-pattern
rule is accepted. -/
theorem c2_infallible_construction :
    (∀ w rp esc, RunningText.new [] w rp esc = none) ∧
    (∀ s rp esc, RunningText.new s 0 rp esc = none) ∧
    (RunningText.new "ab".toList 2 true [([], "x".toList)]).isSome = true := by
  refine ⟨fun w rp esc => ?_, fun s rp esc => ?_, rfl⟩
  · show RunningText.new [] w rp esc = none
    unfold RunningText.new
    by_cases h : ([] : List Char).length < ccShrink esc
    · simp [h]
    · have h0 : ccShrink esc = 0 := by
        simp only [List.length_nil, Nat.not_lt, Nat.le_zero] at h
        exact h
      cases w <;> simp [h, h0]
  · show RunningText.new s 0 rp esc = none
    unfold RunningText.new
    by_cases h : s.length < ccShrink esc
    · simp [h]
    · simp [h]

/-! ## C4: how `char_count` is computed and the mode chosen -/

/-- Modelled from the spec: the claim's `char_count` — "the number of logical
units of the fully transformed text (each atomic replacement run counting as
exactly one unit regardless of its byte length)".  Computed as the character
count of the transformed text minus, for each recorded run, its character
count less one.  Stated from the spec's words, to be compared with the
code's computation. -/
def specCharCount (s : List Char) (esc : List (List Char × List Char)) :
    Option Nat :=
  (applyEscapesLoop true esc s [] []).map fun x =>
    x.1.length -
      (x.2.1.map fun p =>
        ((byteSlice x.1 p.1 (p.1 + p.2)).getD []).length - 1).sum

/-- C4 counterexample: content `"abab"`, rule `"ab" → "x"`, width 2,
`repeat = false`.  The transformed text `"xx"` has 2 logical units (two
one-character runs), so the claim requires fits mode at width 2; the code
computes `char_count = 4 - (2 - 1) = 3` (byte-length difference once per
rule, not per match) and takes the repeating path. -/
theorem c4_counterexample :
    (RunningText.new "abab".toList 2 false [("ab".toList, "x".toList)]).map
      RunningText.repeat_ = some true ∧
    specCharCount "abab".toList [("ab".toList, "x".toList)] = some 2 :=
  ⟨rfl, rfl⟩

/-- A junk `RunningText` used as a `getD` default. -/
def junkRT : RunningText := ⟨[], 0, false, [], []⟩

/-- C4 (amended): construction computes `char_count` as the original
character count minus, for each rule, the positive part of (pattern byte
length − replacement byte length) — once per rule, regardless of match
count.  The repeating path is taken exactly when `repeat` is set or this
`char_count` exceeds the width; in fits mode the stored text is the
transformed content; and `repeat = false` with width exactly
`char_count - 1` forces the repeating path. -/
theorem c4_mode_selection :
    ∀ s w rp esc rt, RunningText.new s w rp esc = some rt →
      rt.repeat_ = (rp || decide (w < s.length - ccShrink esc)) ∧
      (rt.repeat_ = false →
        some rt.s = (applyEscapesLoop false esc s [] []).map Prod.fst) ∧
      (rp = false → w + 1 = s.length - ccShrink esc → rt.repeat_ = true) := by
  intro s w rp esc rt h
  unfold RunningText.new at h
  by_cases h1 : s.length < ccShrink esc
  · simp [h1] at h
  · simp only [h1, if_false] at h
    by_cases h2 : w = 0
    · simp [h2] at h
    · simp only [h2, if_false] at h
      by_cases h3 : s.length - ccShrink esc = 0
      · simp [h3] at h
      · simp only [h3, if_false] at h
        set rep := rp || decide (w < s.length - ccShrink esc) with hrep
        rcases he : applyEscapesLoop rep esc s [] [] with _ | ⟨s1, lb1, rb1⟩
        · rw [he] at h; simp at h
        · rw [he] at h
          by_cases h4 : rep = false
          · simp only [h4, if_true, reduceIte, Option.some_inj] at h
            subst h
            refine ⟨?_, ?_, ?_⟩
            · simp [← hrep, h4]
            · intro _
              rw [h4] at he
              simp [he]
            · intro hrp hw
              rw [hrep] at h4
              exfalso
              rw [hrp] at h4
              simp at h4
              omega
          · have hrepT : rep = true := by
              cases hr : rep
              · exact absurd hr h4
              · rfl
            simp only [hrepT] at h
            rw [if_neg (by simp : ¬ (true = false))] at h
            rcases hw : walkLoop (utf8Len (doubleTimes ((w - 1) / (s.length - ccShrink esc)) s1))
                ((w - 1) % (s.length - ccShrink esc)) 0
                (doubleTimes ((w - 1) / (s.length - ccShrink esc)) s1)
                (rescanLeft (doubleTimes ((w - 1) / (s.length - ccShrink esc)) s1) esc lb1)
                (rescanRight (doubleTimes ((w - 1) / (s.length - ccShrink esc)) s1) esc rb1)
              with _ | ⟨off, lb3, rb3⟩
            · simp only [hw] at h
              exact Option.noConfusion h
            · simp only [hw] at h
              rcases ht : byteTake (doubleTimes ((w - 1) / (s.length - ccShrink esc)) s1) off
                with _ | pre
              · simp only [ht] at h
                exact Option.noConfusion h
              · simp only [ht, Option.some_inj] at h
                subst h
                refine ⟨?_, ?_, ?_⟩
                · simp [← hrep, hrepT]
                · intro hfalse
                  simp at hfalse
                · intro _ _
                  rfl

/-! ## C8: fits mode -/

/-- With the repeat flag off, the replacement loop never records bounds. -/
theorem applyEscapesLoop_false_maps :
    ∀ esc s lb rb res, applyEscapesLoop false esc s lb rb = some res →
      res.2.1 = lb ∧ res.2.2 = rb := by
  intro esc
  induction esc with
  | nil =>
    intro s lb rb res h
    simp only [applyEscapesLoop, Option.some_inj] at h
    rw [← h]
    exact ⟨rfl, rfl⟩
  | cons p esc ih =>
    intro s lb rb res h
    rcases p with ⟨src, dest⟩
    simp only [applyEscapesLoop] at h
    split at h
    · exact Option.noConfusion h
    · split at h
      · exact Option.noConfusion h
      · simp only [Bool.false_and, Bool.false_eq_true, if_false] at h
        exact ih _ _ _ _ h

/-- A fits-mode `RunningText` produced by `new` has empty boundary maps and
stores the transformed text. -/
theorem new_fits_shape :
    ∀ s w rp esc rt, RunningText.new s w rp esc = some rt →
      rt.repeat_ = false →
      rt.left_escape_bounds = [] ∧ rt.right_escape_bounds = [] := by
  intro s w rp esc rt h hf
  unfold RunningText.new at h
  by_cases h1 : s.length < ccShrink esc
  · simp [h1] at h
  · simp only [h1, if_false] at h
    by_cases h2 : w = 0
    · simp [h2] at h
    · simp only [h2, if_false] at h
      by_cases h3 : s.length - ccShrink esc = 0
      · simp [h3] at h
      · simp only [h3, if_false] at h
        rcases he : applyEscapesLoop (rp || decide (w < s.length - ccShrink esc))
            esc s [] [] with _ | ⟨s1, lb1, rb1⟩
        · simp only [he] at h
          exact Option.noConfusion h
        · simp only [he] at h
          by_cases h4 : (rp || decide (w < s.length - ccShrink esc)) = false
          · rw [if_pos h4, Option.some_inj] at h
            subst h
            rw [h4] at he
            have := applyEscapesLoop_false_maps esc s [] [] _ he
            exact this
          · rw [if_neg h4] at h
            rcases hw : walkLoop (utf8Len (doubleTimes ((w - 1) / (s.length - ccShrink esc)) s1))
                ((w - 1) % (s.length - ccShrink esc)) 0
                (doubleTimes ((w - 1) / (s.length - ccShrink esc)) s1)
                (rescanLeft (doubleTimes ((w - 1) / (s.length - ccShrink esc)) s1) esc lb1)
                (rescanRight (doubleTimes ((w - 1) / (s.length - ccShrink esc)) s1) esc rb1)
              with _ | ⟨off, lb3, rb3⟩
            · simp only [hw] at h
              exact Option.noConfusion h
            · simp only [hw] at h
              rcases ht : byteTake (doubleTimes ((w - 1) / (s.length - ccShrink esc)) s1) off
                with _ | pre
              · simp only [ht] at h
                exact Option.noConfusion h
              · simp only [ht, Option.some_inj] at h
                subst h
                simp at hf

/-- First `next()` on a fresh fits-mode iterator over a non-empty text:
yields the full text and moves the cursors (left one unit forward, right to
its exhausted state). -/
theorem fits_next_init (c : Char) (t : List Char) :
    RunIter.next ⟨c :: t, 0, utf8Len (c :: t), [], [], ⟨0, false⟩,
        ⟨utf8Len (c :: t), false⟩⟩ =
      some (((0, utf8Len (c :: t)), c :: t),
        ⟨c :: t, 0, utf8Len (c :: t), [], [],
          ⟨charSize c, false⟩, ⟨utf8Len (c :: t), true⟩⟩) := by
  have hl : runNext (c :: t) [] ⟨0, false⟩ = some (some 0, ⟨charSize c, false⟩) := by
    unfold runNext
    simp [byteDrop_zero, mlookup]
  have hr : runNext (c :: t) [] ⟨utf8Len (c :: t), false⟩ =
      some (some (utf8Len (c :: t)), ⟨utf8Len (c :: t), true⟩) := by
    unfold runNext
    simp [byteDrop_utf8Len]
  unfold RunIter.next
  simp only [hl, hr, byteSlice_full]

/-- Every later `next()` on a fits-mode iterator: the state
`(left = one unit in, right = exhausted at the end)` is a fixed point and
keeps yielding the full text (the call wraps: the right cursor returns
`None`, both cursors are reset and stepped once). -/
theorem fits_next_fix (c : Char) (t : List Char) :
    RunIter.next ⟨c :: t, 0, utf8Len (c :: t), [], [],
        ⟨charSize c, false⟩, ⟨utf8Len (c :: t), true⟩⟩ =
      some (((0, utf8Len (c :: t)), c :: t),
        ⟨c :: t, 0, utf8Len (c :: t), [], [],
          ⟨charSize c, false⟩, ⟨utf8Len (c :: t), true⟩⟩) := by
  have hl0 : runNext (c :: t) [] ⟨0, false⟩ = some (some 0, ⟨charSize c, false⟩) := by
    unfold runNext
    simp [byteDrop_zero, mlookup]
  have hrL : runNext (c :: t) [] ⟨utf8Len (c :: t), false⟩ =
      some (some (utf8Len (c :: t)), ⟨utf8Len (c :: t), true⟩) := by
    unfold runNext
    simp [byteDrop_utf8Len]
  have hrEnd : runNext (c :: t) [] ⟨utf8Len (c :: t), true⟩ =
      some (none, ⟨utf8Len (c :: t), true⟩) := by
    unfold runNext
    simp
  have hl : ∃ st', runNext (c :: t) [] ⟨charSize c, false⟩ =
      some (some (charSize c), st') := by
    unfold runNext
    rw [byteDrop_head]
    cases t with
    | nil => exact ⟨_, rfl⟩
    | cons c' t' => exact ⟨_, rfl⟩
  rcases hl with ⟨st', hl⟩
  unfold RunIter.next
  simp only [hl, hrEnd, hl0, hrL, byteSlice_full]

/-- C8 counterexample: the fits-mode iterator for content `"ab"`, width 5,
no rules — the first `next()` mutates the iterator state: the right cursor's
exhausted flag flips from `false` to `true` (and the left cursor advances),
contradicting "repeated calls to next() never mutate any internal iterator
state". -/
theorem c8_counterexample :
    ((RunningText.new "ab".toList 5 false []).bind RunningText.iter).map
        (fun it => it.right_off.atEnd) = some false ∧
    (((RunningText.new "ab".toList 5 false []).bind RunningText.iter).bind
        RunIter.next).map (fun x => x.2.right_off.atEnd) = some true ∧
    (((RunningText.new "ab".toList 5 false []).bind RunningText.iter).bind
        RunIter.next).map (fun x => x.2.left_off.offset) = some 1 :=
  ⟨rfl, rfl, rfl⟩

/-- C8 (amended): in fits mode (`repeat_ = false` after construction) with a
non-empty backing text, every `next()` call returns the identical full
transformed string with byte range `[0, len)`; the first call mutates the
cursor state, after which the state is a fixed point — every call from the
first onward leaves the iterator unchanged. -/
theorem c8_fits_idempotent :
    ∀ s w rp esc rt, RunningText.new s w rp esc = some rt →
      rt.repeat_ = false → rt.s ≠ [] →
      ∃ it0, rt.iter = some it0 ∧
        (∀ n, outN RunIter.next n it0 = some ((0, utf8Len rt.s), rt.s)) ∧
        (∀ n, iterN RunIter.next (n + 1) it0 = iterN RunIter.next 1 it0) := by
  intro s w rp esc rt h hf hs
  obtain ⟨hlb, hrb⟩ := new_fits_shape s w rp esc rt h hf
  rcases hcs : rt.s with _ | ⟨c, t⟩
  · exact absurd hcs hs
  refine ⟨⟨rt.s, 0, utf8Len rt.s, rt.left_escape_bounds, rt.right_escape_bounds,
    ⟨0, false⟩, ⟨utf8Len rt.s, false⟩⟩, ?_, ?_, ?_⟩
  · unfold RunningText.iter
    rw [if_pos hf]
  · intro n
    rw [hcs, hlb, hrb]
    cases n with
    | zero =>
      unfold outN
      simp [iterN, fits_next_init]
    | succ k =>
      have hstep : ∀ m, iterN RunIter.next (m + 1)
          (⟨c :: t, 0, utf8Len (c :: t), [], [], ⟨0, false⟩,
            ⟨utf8Len (c :: t), false⟩⟩ : RunIter) =
          some ⟨c :: t, 0, utf8Len (c :: t), [], [],
            ⟨charSize c, false⟩, ⟨utf8Len (c :: t), true⟩⟩ := by
        intro m
        induction m with
        | zero => simp [iterN, fits_next_init]
        | succ j ih =>
          rw [iterN_add RunIter.next (j + 1) 1, ih]
          simp [iterN, fits_next_fix]
      unfold outN
      rw [hstep k]
      simp [fits_next_fix]
  · intro n
    rw [hcs, hlb, hrb]
    have hstep : ∀ m, iterN RunIter.next (m + 1)
        (⟨c :: t, 0, utf8Len (c :: t), [], [], ⟨0, false⟩,
          ⟨utf8Len (c :: t), false⟩⟩ : RunIter) =
        some ⟨c :: t, 0, utf8Len (c :: t), [], [],
          ⟨charSize c, false⟩, ⟨utf8Len (c :: t), true⟩⟩ := by
      intro m
      induction m with
      | zero => simp [iterN, fits_next_init]
      | succ j ih =>
        rw [iterN_add RunIter.next (j + 1) 1, ih]
        simp [iterN, fits_next_fix]
    rw [hstep n, hstep 0]

/-- The `RunningText` of the C8 witness configuration. -/
def c8wrt : RunningText :=
  (RunningText.new "a & b".toList 5 false []).getD ⟨[], 0, false, [], []⟩

/-- Witness for `c8_fits_idempotent` at content `"a & b"`, width 5,
`repeat = false`, no rules (the `without_repeat` test configuration). -/
theorem c8_fits_idempotent_witness :
    ∃ it0, c8wrt.iter = some it0 ∧
      (∀ n, outN RunIter.next n it0 = some ((0, utf8Len c8wrt.s), c8wrt.s)) ∧
      (∀ n, iterN RunIter.next (n + 1) it0 = iterN RunIter.next 1 it0) :=
  c8_fits_idempotent "a & b".toList 5 false [] c8wrt rfl rfl (by decide)

/-- The `RunningText` of the C4 witness configuration. -/
def c4wrt : RunningText :=
  (RunningText.new "ab".toList 5 false []).getD junkRT

/-! ## C10: `replace_newline` (`src/utils.rs`) -/

/-- The UTF-8 encoding of one scalar value (byte values as `Nat`). -/
def utf8Bytes (c : Char) : List Nat :=
  if c.toNat < 0x80 then [c.toNat]
  else if c.toNat < 0x800 then [0xC0 + c.toNat / 64, 0x80 + c.toNat % 64]
  else if c.toNat < 0x10000 then
    [0xE0 + c.toNat / 4096, 0x80 + c.toNat / 64 % 64, 0x80 + c.toNat % 64]
  else
    [0xF0 + c.toNat / 262144, 0x80 + c.toNat / 4096 % 64,
      0x80 + c.toNat / 64 % 64, 0x80 + c.toNat % 64]

/-- The UTF-8 encoding of a string. -/
def utf8Encode : List Char → List Nat
  | [] => []
  | c :: t => utf8Bytes c ++ utf8Encode t

/-- The backward in-place copy loop of `replace_newline` (lines 25–38): the
source bytes are visited from the last to the first, each `b'\n'` byte
writing the replacement bytes and every other byte writing itself, always to
the left of everything written so far.  Its net effect is this left-to-right
concatenation of the per-byte outputs, here built by recursion on the source
bytes (the writes never overlap the unread source region, since the write
cursor stays at least as far right as the read cursor). -/
def rnCore (rep : List Nat) : List Nat → List Nat
  | [] => []
  | b :: rest => (if b = 10 then rep else [b]) ++ rnCore rep rest

/-- `replace_newline` (`src/utils.rs` lines 11–39): remove every `'\r'`; if
the replacement is empty, remove every `'\n'`; otherwise pad the buffer and
run the backward byte-shuffle replacing each `b'\n'` byte by the
replacement's bytes.  The result is the final byte buffer. -/
def replace_newline (text : List Char) (replacement : List Char) : List Nat :=
  let t1 := text.filter fun c => !(c = '\r' : Bool)
  if replacement.isEmpty then
    utf8Encode (t1.filter fun c => !(c = '\n' : Bool))
  else
    rnCore (utf8Encode replacement) (utf8Encode t1)

theorem char_eq_newline_of_toNat {c : Char} (h : c.toNat = 10) : c = '\n' := by
  apply Char.ext
  apply UInt32.ext
  simpa [Char.toNat] using h

/-- The byte 10 occurs in a character's UTF-8 encoding only for `'\n'`
itself: continuation and lead bytes of multi-byte encodings are all at least
`0x80`. -/
theorem utf8Bytes_ten {c : Char} {b : Nat} (hb : b ∈ utf8Bytes c)
    (h10 : b = 10) : c = '\n' := by
  unfold utf8Bytes at hb
  subst h10
  split at hb
  · simp at hb
    exact char_eq_newline_of_toNat hb.symm
  · split at hb
    · simp at hb
      omega
    · split at hb
      · simp at hb
        omega
      · simp at hb
        omega

/-- `rnCore` passes a block of newline-free bytes through unchanged. -/
theorem rnCore_append_free (rep : List Nat) (l1 l2 : List Nat)
    (hf : ∀ b ∈ l1, b ≠ 10) :
    rnCore rep (l1 ++ l2) = l1 ++ rnCore rep l2 := by
  induction l1 with
  | nil => rfl
  | cons b t ih =>
    have hb : b ≠ 10 := hf b (by simp)
    have ih' := ih fun x hx => hf x (by simp [hx])
    simp only [List.cons_append, rnCore, if_neg hb, List.nil_append,
      List.append_eq, List.singleton_append]
    rw [ih']

theorem utf8Encode_append (l1 l2 : List Char) :
    utf8Encode (l1 ++ l2) = utf8Encode l1 ++ utf8Encode l2 := by
  induction l1 with
  | nil => rfl
  | cons c t ih => simp [utf8Encode, ih]

/-- The core correctness of the backward shuffle: encoding then shuffling
equals substituting at the character level then encoding. -/
theorem rnCore_encode (rep : List Char) (l : List Char) :
    rnCore (utf8Encode rep) (utf8Encode l) =
      utf8Encode (l.foldr
        (fun c acc => (if c = '\n' then rep else [c]) ++ acc) []) := by
  induction l with
  | nil => rfl
  | cons c t ih =>
    show rnCore (utf8Encode rep) (utf8Bytes c ++ utf8Encode t) = _
    by_cases hc : c = '\n'
    · subst hc
      have hbytes : utf8Bytes '\n' = [10] := rfl
      rw [hbytes]
      show rnCore (utf8Encode rep) (10 :: utf8Encode t) = _
      simp only [rnCore, if_pos rfl]
      rw [ih]
      simp [List.foldr_cons, utf8Encode_append]
    · have hfree : ∀ b ∈ utf8Bytes c, b ≠ 10 := by
        intro b hb h10
        exact hc (utf8Bytes_ten hb h10)
      rw [rnCore_append_free _ _ _ hfree, ih]
      simp [List.foldr_cons, if_neg hc, utf8Encode_append, utf8Encode]

/-! ## The forward unit orbit

The forward cursor's offset evolution is a pure function of the offset: at a
recorded run start it jumps the run's length, otherwise it advances one
character.  `orbitN lb s j` is the byte offset after `j` forward units from
offset 0 — a specification-side description of `RunIndex`'s forward walk,
used to state the resume-equivalence and backing-text claims. -/

def orbitStep (lb : BMap) (s : List Char) (o : Nat) : Nat :=
  match mlookup lb o with
  | some l => o + l
  | none => o + sizeAt s o

def orbitN (lb : BMap) (s : List Char) : Nat → Nat
  | 0 => 0
  | n + 1 => orbitStep lb s (orbitN lb s n)

/-- `lb` is well formed for `s`: every recorded run has positive length and
ends at a character boundary. -/
def lbWF (s : List Char) (lb : BMap) : Prop :=
  ∀ p ∈ lb, 0 < p.2 ∧ (byteDrop s (p.1 + p.2)).isSome = true

theorem mlookup_mem {m : BMap} {k v : Nat} (h : mlookup m k = some v) :
    (k, v) ∈ m := by
  induction m with
  | nil => exact Option.noConfusion h
  | cons p t ih =>
    rcases p with ⟨a, b⟩
    simp only [mlookup] at h
    by_cases hk : k = a
    · rw [if_pos hk, Option.some_inj] at h
      subst hk; subst h
      simp
    · rw [if_neg hk] at h
      exact List.mem_cons_of_mem _ (ih h)

theorem byteDrop_add (s : List Char) (a b : Nat) (t : List Char)
    (h : byteDrop s a = some t) : byteDrop s (a + b) = byteDrop t b := by
  induction s generalizing a with
  | nil =>
    cases a with
    | zero =>
      rw [byteDrop_zero, Option.some_inj] at h
      subst h
      simp
    | succ k => exact Option.noConfusion h
  | cons c s' ih =>
    cases a with
    | zero =>
      rw [byteDrop_zero, Option.some_inj] at h
      subst h
      simp
    | succ k =>
      simp only [byteDrop] at h
      by_cases hlt : k + 1 < charSize c
      · rw [if_pos hlt] at h
        exact Option.noConfusion h
      · rw [if_neg hlt] at h
        have harg : k + 1 + b = (k + b) + 1 := by omega
        rw [harg]
        simp only [byteDrop]
        have h2 : ¬ (k + b + 1 < charSize c) := by omega
        rw [if_neg h2]
        have h3 : k + b + 1 - charSize c = (k + 1 - charSize c) + b := by omega
        rw [h3]
        exact ih _ h

theorem byteDrop_cons_add {s : List Char} {o : Nat} {c : Char} {t : List Char}
    (h : byteDrop s o = some (c :: t)) :
    byteDrop s (o + charSize c) = some t := by
  rw [byteDrop_add s o (charSize c) _ h]
  exact byteDrop_head c t

theorem byteDrop_some_len {s : List Char} :
    ∀ {a : Nat} {t : List Char}, byteDrop s a = some t →
      a + utf8Len t = utf8Len s := by
  induction s with
  | nil =>
    intro a t h
    cases a with
    | zero =>
      rw [byteDrop_zero, Option.some_inj] at h
      subst h
      rfl
    | succ k => exact Option.noConfusion h
  | cons c s' ih =>
    intro a t h
    cases a with
    | zero =>
      rw [byteDrop_zero, Option.some_inj] at h
      subst h
      simp
    | succ k =>
      simp only [byteDrop] at h
      by_cases hlt : k + 1 < charSize c
      · rw [if_pos hlt] at h
        exact Option.noConfusion h
      · rw [if_neg hlt] at h
        have := ih h
        show k + 1 + utf8Len t = charSize c + utf8Len s'
        omega

theorem byteDrop_lt_cons {s t : List Char} {o : Nat}
    (h : byteDrop s o = some t) (hlt : o < utf8Len s) :
    ∃ c t', t = c :: t' := by
  cases t with
  | nil =>
    have := byteDrop_some_len h
    simp only [utf8Len] at this
    omega
  | cons c t' => exact ⟨c, t', rfl⟩

/-- Stepping `runNext` at a mid-string boundary offset advances the cursor
exactly to the next orbit point. -/
theorem runNext_mid {s : List Char} {lb : BMap} {o : Nat} {c : Char}
    {t : List Char} (h : byteDrop s o = some (c :: t)) :
    runNext s lb ⟨o, false⟩ =
      some (some o, ⟨orbitStep lb s o, false⟩) := by
  unfold runNext orbitStep sizeAt
  rw [h]
  cases hm : mlookup lb o <;> simp [hm, h]

/-- `runNext` at any boundary offset returns the offset itself. -/
theorem runNext_val {s : List Char} (lb : BMap) {o : Nat}
    (h : (byteDrop s o).isSome = true) :
    ∃ st', runNext s lb ⟨o, false⟩ = some (some o, st') := by
  rcases hd : byteDrop s o with _ | l
  · rw [hd] at h
    exact Bool.noConfusion h
  · cases l with
    | nil =>
      refine ⟨⟨o, true⟩, ?_⟩
      unfold runNext
      rw [hd]
      simp
    | cons c t => exact ⟨_, runNext_mid hd⟩

/-- Every orbit point is a character boundary (under well-formed bounds). -/
theorem orbit_boundary {s : List Char} {lb : BMap} (hwf : lbWF s lb) :
    ∀ n, (byteDrop s (orbitN lb s n)).isSome = true := by
  intro n
  induction n with
  | zero =>
    rw [show orbitN lb s 0 = 0 from rfl, byteDrop_zero]
    rfl
  | succ k ih =>
    show (byteDrop s (orbitStep lb s (orbitN lb s k))).isSome = true
    unfold orbitStep
    cases hm : mlookup lb (orbitN lb s k) with
    | some l => exact (hwf _ (mlookup_mem hm)).2
    | none =>
      rcases hd : byteDrop s (orbitN lb s k) with _ | u
      · rw [hd] at ih
        exact Bool.noConfusion ih
      · cases u with
        | nil =>
          have hsz : sizeAt s (orbitN lb s k) = 0 := by
            unfold sizeAt
            rw [hd]
          rw [hsz, Nat.add_zero]
          exact ih
        | cons c t =>
          unfold sizeAt
          rw [hd]
          rw [byteDrop_cons_add hd]
          rfl

theorem orbit_mono {s : List Char} {lb : BMap} :
    ∀ {m n : Nat}, m ≤ n → orbitN lb s m ≤ orbitN lb s n := by
  intro m n h
  induction n with
  | zero =>
    have : m = 0 := by omega
    subst this
    exact Nat.le_refl _
  | succ k ih =>
    by_cases hm : m = k + 1
    · subst hm
      exact Nat.le_refl _
    · have h2 : m ≤ k := by omega
      refine Nat.le_trans (ih h2) ?_
      show orbitN lb s k ≤ orbitStep lb s (orbitN lb s k)
      unfold orbitStep
      cases mlookup lb (orbitN lb s k) <;> simp

/-- Advancing `n` units from orbit point `a` when all intermediate orbit
points are interior: succeeds and lands on orbit point `a + n`. -/
theorem runAdvanceBy_orbit {s : List Char} {lb : BMap} (hwf : lbWF s lb) :
    ∀ (n a : Nat), (∀ i, i < n → orbitN lb s (a + i) < utf8Len s) →
      runAdvanceBy s lb n ⟨orbitN lb s a, false⟩ =
        some (true, ⟨orbitN lb s (a + n), false⟩) := by
  intro n
  induction n with
  | zero =>
    intro a _
    simp [runAdvanceBy]
  | succ k ih =>
    intro a hlt
    have hb := orbit_boundary hwf a
    rcases hd : byteDrop s (orbitN lb s a) with _ | l
    · rw [hd] at hb
      exact Bool.noConfusion hb
    · have hlt0 : orbitN lb s a < utf8Len s := by
        have := hlt 0 (by omega)
        rwa [Nat.add_zero] at this
      rcases byteDrop_lt_cons hd hlt0 with ⟨c, t, rfl⟩
      have hih := ih (a + 1) (fun i hi => by
        have h2 := hlt (i + 1) (by omega)
        rwa [show a + (i + 1) = a + 1 + i by omega] at h2)
      show runAdvanceBy s lb (k + 1) ⟨orbitN lb s a, false⟩ = _
      simp only [runAdvanceBy, runNext_mid hd]
      have hstep : orbitStep lb s (orbitN lb s a) = orbitN lb s (a + 1) := rfl
      rw [hstep, hih, show a + 1 + k = a + (k + 1) by omega]

/-! ## C7: resume equivalence (`iter_at`) -/

theorem byteTake_isSome_of_byteDrop :
    ∀ (t : List Char) (b : Nat), (byteDrop t b).isSome = true →
      (byteTake t b).isSome = true := by
  intro t
  induction t with
  | nil =>
    intro b h
    cases b with
    | zero => rfl
    | succ k => exact Bool.noConfusion h
  | cons c t' ih =>
    intro b h
    cases b with
    | zero => rfl
    | succ k =>
      simp only [byteDrop] at h
      simp only [byteTake]
      by_cases hlt : k + 1 < charSize c
      · rw [if_pos hlt] at h
        exact Bool.noConfusion h
      · rw [if_neg hlt] at h
        rw [if_neg hlt]
        have := ih _ h
        rcases hbt : byteTake t' (k + 1 - charSize c) with _ | u
        · rw [hbt] at this
          exact Bool.noConfusion this
        · simp [hbt]

/-- A slice between two character boundaries exists. -/
theorem byteSlice_some {s tl : List Char} {l r : Nat}
    (hl : byteDrop s l = some tl) (hr : (byteDrop s r).isSome = true)
    (hlr : l ≤ r) : ∃ win, byteSlice s l r = some win := by
  unfold byteSlice
  rw [if_neg (by omega : ¬ r < l), hl]
  have hdt : (byteDrop tl (r - l)).isSome = true := by
    have := byteDrop_add s l (r - l) tl hl
    rw [show l + (r - l) = r by omega] at this
    rw [← this]
    exact hr
  have := byteTake_isSome_of_byteDrop tl (r - l) hdt
  rcases hbt : byteTake tl (r - l) with _ | win
  · rw [hbt] at this
    exact Bool.noConfusion this
  · exact ⟨win, by simp [hbt]⟩

/-- The shape of the iterator produced by `iter` in repeat mode. -/
theorem iter_repeat_shape {rt : RunningText} {it0 : RunIter}
    (hrep : rt.repeat_ = true) (h : rt.iter = some it0) :
    ∃ la ra, rt.anchors = some (la, ra) ∧
      it0 = ⟨rt.s, la, ra, rt.left_escape_bounds, rt.right_escape_bounds,
        ⟨0, false⟩, ⟨ra, false⟩⟩ := by
  unfold RunningText.iter at h
  rw [if_neg (by simp [hrep])] at h
  rcases ha : rt.anchors with _ | ⟨la, ra⟩
  · rw [ha] at h
    exact Option.noConfusion h
  · rw [ha, Option.some_inj] at h
    exact ⟨la, ra, rfl, h.symm⟩

/-- Under well-formed left bounds with the first `w` orbit points interior,
the right anchor computed by `anchors` is the `w`-th orbit point. -/
theorem anchors_right_orbit {rt : RunningText}
    (hwf : lbWF rt.s rt.left_escape_bounds)
    (hlt : ∀ i, i < rt.w →
      orbitN rt.left_escape_bounds rt.s i < utf8Len rt.s)
    {la ra : Nat} (h : rt.anchors = some (la, ra)) :
    ra = orbitN rt.left_escape_bounds rt.s rt.w := by
  unfold RunningText.anchors at h
  rcases hb : runAdvanceBackBy rt.s rt.right_escape_bounds rt.w
      ⟨utf8Len rt.s, false⟩ with _ | ⟨okL, stL⟩
  · rw [hb] at h
    exact Option.noConfusion h
  · rw [hb] at h
    have hadv : runAdvanceBy rt.s rt.left_escape_bounds rt.w ⟨0, false⟩ =
        some (true, ⟨orbitN rt.left_escape_bounds rt.s rt.w, false⟩) := by
      have := runAdvanceBy_orbit hwf rt.w 0 (fun i hi => by
        have h2 := hlt i hi
        rwa [show 0 + i = i by omega])
      rw [Nat.zero_add] at this
      exact this
    obtain ⟨st', hnx⟩ := runNext_val rt.left_escape_bounds
      (orbit_boundary hwf rt.w)
    rcases okL with _ | _
    · simp only [if_neg (by simp : ¬ (false = true))] at h
      simp [hadv, hnx] at h
      exact h.2.symm
    · simp only [if_pos rfl] at h
      rcases hnb : runNextBack rt.s rt.right_escape_bounds stL with _ | ⟨v, _⟩
      · rw [hnb] at h
        exact Option.noConfusion h
      · rw [hnb] at h
        simp [hadv, hnx] at h
        exact h.2.symm

/-- Stepping the repeat-mode iterator `n` times (no wrap yet): both cursors
march along the orbit, `w` units apart. -/
theorem iter_steps_orbit {s : List Char} {lb rb : BMap} {la : Nat} (w : Nat)
    (hwf : lbWF s lb) (j : Nat)
    (hlt : ∀ i, i < j + w → orbitN lb s i < utf8Len s) :
    ∀ n, n ≤ j →
      iterN RunIter.next n
        ⟨s, la, orbitN lb s w, lb, rb, ⟨0, false⟩, ⟨orbitN lb s w, false⟩⟩ =
      some ⟨s, la, orbitN lb s w, lb, rb,
        ⟨orbitN lb s n, false⟩, ⟨orbitN lb s (n + w), false⟩⟩ := by
  intro n
  induction n with
  | zero =>
    intro _
    show some _ = _
    rw [show orbitN lb s (0 + w) = orbitN lb s w by rw [Nat.zero_add]]
    rfl
  | succ k ih =>
    intro hk
    rw [show k + 1 = k + 1 from rfl, iterN_add RunIter.next k 1, ih (by omega)]
    show iterN RunIter.next 1 _ = _
    have hkj : k < j := by omega
    have hbl := orbit_boundary hwf k
    rcases hdl : byteDrop s (orbitN lb s k) with _ | tl
    · rw [hdl] at hbl
      exact Bool.noConfusion hbl
    rcases byteDrop_lt_cons hdl (hlt k (by omega)) with ⟨c, tl', rfl⟩
    have hbr := orbit_boundary hwf (k + w)
    rcases hdr : byteDrop s (orbitN lb s (k + w)) with _ | tr
    · rw [hdr] at hbr
      exact Bool.noConfusion hbr
    rcases byteDrop_lt_cons hdr (hlt (k + w) (by omega)) with ⟨c', tr', rfl⟩
    have hsl : orbitN lb s k ≤ orbitN lb s (k + w) := orbit_mono (by omega)
    rcases byteSlice_some hdl (by rw [hdr]; rfl) hsl with ⟨win, hwin⟩
    simp only [iterN, RunIter.next, runNext_mid hdl, runNext_mid hdr, hwin]
    have h1 : orbitStep lb s (orbitN lb s k) = orbitN lb s (k + 1) := rfl
    have h2 : orbitStep lb s (orbitN lb s (k + w)) = orbitN lb s (k + w + 1) := rfl
    rw [h1, h2, show k + w + 1 = k + 1 + w by omega]

/-- C7 counterexample: content `"I am a running text|"`, width 12, repeat,
no rules.  The full cycle length is 20, so by the claim the first window of
a fresh iterator at offset `K = 25` must equal window `26` of the iterator
at offset 0 (`(25 + 1) mod 20 = 6`, window `"a running te"`).  Instead
`iter_at(25)` falls back to offset 0 and yields `"I am a runni"`. -/
theorem c7_counterexample :
    ((RunningText.new c6s 12 true []).bind fun rt => rt.iter_at 25).bind
      (outN RunIter.next 0) = some ((0, 12), "I am a runni".toList) ∧
    ((RunningText.new c6s 12 true []).bind RunningText.iter).bind
      (outN RunIter.next 25) = some ((5, 17), "a running te".toList) :=
  ⟨rfl, rfl⟩

/-- C7 (amended): for a repeat-mode `RunningText` with well-formed left
bounds, if offset `K` snaps to the `j`-th point of the forward unit orbit
and a full window fits there (the first `j + w` orbit points are interior),
then the fresh iterator `iter_at(K)` coincides — as a state — with the
`iter()` iterator after exactly `j` steps, and for every `N` its `(N+1)`-st
window equals the `(j+N+1)`-st window of the from-zero iterator.  For other
offsets (e.g. beyond the cycle) `iter_at` falls back to the start anchor
rather than reducing `K` modulo the cycle length (see the counterexample). -/
theorem c7_resume_equivalence :
    ∀ (rt : RunningText) (K j : Nat) (it0 : RunIter),
      rt.repeat_ = true →
      lbWF rt.s rt.left_escape_bounds →
      rt.iter = some it0 →
      iterAtSnap rt K = orbitN rt.left_escape_bounds rt.s j →
      (∀ i, i < j + rt.w →
        orbitN rt.left_escape_bounds rt.s i < utf8Len rt.s) →
      ∃ itj, iterN RunIter.next j it0 = some itj ∧
        rt.iter_at K = some itj ∧
        ∀ N, outN RunIter.next N itj = outN RunIter.next (j + N) it0 := by
  intro rt K j it0 hrep hwf hiter hsnap hlt
  obtain ⟨la, ra, ha, hshape⟩ := iter_repeat_shape hrep hiter
  have hra : ra = orbitN rt.left_escape_bounds rt.s rt.w :=
    anchors_right_orbit hwf (fun i hi => hlt i (by omega)) ha
  subst hra
  subst hshape
  refine ⟨⟨rt.s, la, orbitN rt.left_escape_bounds rt.s rt.w,
    rt.left_escape_bounds, rt.right_escape_bounds,
    ⟨orbitN rt.left_escape_bounds rt.s j, false⟩,
    ⟨orbitN rt.left_escape_bounds rt.s (j + rt.w), false⟩⟩, ?_, ?_, ?_⟩
  · exact iter_steps_orbit rt.w hwf j hlt j (Nat.le_refl j)
  · unfold RunningText.iter_at
    rw [if_neg (by simp [hrep]), ha, hsnap]
    have hadv : runAdvanceBy rt.s rt.left_escape_bounds rt.w
        ⟨orbitN rt.left_escape_bounds rt.s j, false⟩ =
        some (true, ⟨orbitN rt.left_escape_bounds rt.s (j + rt.w), false⟩) :=
      runAdvanceBy_orbit hwf rt.w j (fun i hi => hlt (j + i) (by omega))
    rcases runNext_val rt.left_escape_bounds
        (orbit_boundary hwf (j + rt.w)) with ⟨st', hnx⟩
    simp [hadv, hnx]
  · intro N
    unfold outN
    rw [iterN_add RunIter.next j N,
      iter_steps_orbit rt.w hwf j hlt j (Nat.le_refl j)]
    rfl

/-- The `RunningText` of the C7 witness configuration. -/
def c7wrt : RunningText :=
  (RunningText.new c6s 12 true []).getD junkRT

/-- Witness for `c7_resume_equivalence`: content `"I am a running text|"`,
width 12, `K = 5` (which snaps to orbit point 5), instantiated at `N = 3`:
the 4th window of `iter_at(5)` equals the 9th window of `iter()`. -/
theorem c7_resume_equivalence_witness :
    ∃ itj, iterN RunIter.next 5 (c7wrt.iter.getD
        ⟨[], 0, 0, [], [], ⟨0, false⟩, ⟨0, false⟩⟩) = some itj ∧
      c7wrt.iter_at 5 = some itj ∧
      ∀ N, outN RunIter.next N itj =
        outN RunIter.next (5 + N) (c7wrt.iter.getD
          ⟨[], 0, 0, [], [], ⟨0, false⟩, ⟨0, false⟩⟩) :=
  c7_resume_equivalence c7wrt 5 5
    (c7wrt.iter.getD ⟨[], 0, 0, [], [], ⟨0, false⟩, ⟨0, false⟩⟩)
    rfl (by unfold lbWF; decide) rfl (by decide) (by decide)

/-! ## C5: the repeating-mode backing text -/

/-- Specification-side: `n` concatenated copies of `t`. -/
def replicateText : Nat → List Char → List Char
  | 0, _ => []
  | n + 1, t => t ++ replicateText n t

theorem replicateText_double : ∀ (n : Nat) (t : List Char),
    replicateText n (t ++ t) = replicateText (2 * n) t := by
  intro n
  induction n with
  | zero => intro t; rfl
  | succ k ih =>
    intro t
    show (t ++ t) ++ replicateText k (t ++ t) = _
    rw [ih t, show 2 * (k + 1) = (2 * k + 1) + 1 by omega]
    show (t ++ t) ++ replicateText (2 * k) t =
      t ++ (t ++ replicateText (2 * k) t)
    rw [List.append_assoc]

/-- The `extend_from_within(..)` loop makes `2^q` copies, not `q + 1`. -/
theorem doubleTimes_replicate : ∀ (q : Nat) (t : List Char),
    doubleTimes q t = replicateText (2 ^ q) t := by
  intro q
  induction q with
  | zero =>
    intro t
    show t = t ++ replicateText 0 t
    rw [show replicateText 0 t = [] from rfl, List.append_nil]
  | succ k ih =>
    intro t
    show doubleTimes k (t ++ t) = _
    rw [ih (t ++ t), replicateText_double, Nat.pow_succ, Nat.mul_comm]

/-- C5 counterexample: content `"ab"`, width 7, repeat, no rules:
`q = (7-1)/2 = 3`, `r = 0`, so the claim requires the backing text to be
`q + 1 = 4` copies (8 characters); the code's doubling loop stores
`2^q = 8` copies (16 characters). -/
theorem c5_counterexample :
    (RunningText.new "ab".toList 7 true []).map (fun rt => rt.s.length) =
      some 16 ∧
    (replicateText 4 "ab".toList).length = 8 :=
  ⟨rfl, rfl⟩

/-- Every character is a single UTF-8 byte. -/
def asciiStr (s : List Char) : Prop := ∀ c ∈ s, charSize c = 1

theorem ascii_utf8Len {s : List Char} (h : asciiStr s) :
    utf8Len s = s.length := by
  induction s with
  | nil => rfl
  | cons c t ih =>
    show charSize c + utf8Len t = t.length + 1
    rw [h c (by simp), ih fun x hx => h x (by simp [hx])]
    omega

theorem ascii_byteDrop {s : List Char} (h : asciiStr s) :
    ∀ n, n ≤ s.length → byteDrop s n = some (s.drop n) := by
  induction s with
  | nil =>
    intro n hn
    have : n = 0 := by simpa using hn
    subst this
    rfl
  | cons c t ih =>
    intro n hn
    cases n with
    | zero => rw [byteDrop_zero]; rfl
    | succ k =>
      have hc : charSize c = 1 := h c (by simp)
      simp only [byteDrop, hc]
      rw [if_neg (by omega)]
      have := ih (fun x hx => h x (by simp [hx])) k (by simpa using hn)
      rw [show k + 1 - 1 = k by omega, this]
      rfl

theorem ascii_sizeAt {s : List Char} (h : asciiStr s) {n : Nat}
    (hn : n < s.length) : sizeAt s n = 1 := by
  unfold sizeAt
  rw [ascii_byteDrop h n (by omega)]
  rcases hd : s.drop n with _ | ⟨c, t⟩
  · have := List.length_drop n s
    rw [hd] at this
    simp at this
    omega
  · exact h c (List.drop_subset n s (by rw [hd]; simp))

theorem ascii_sizeAt_len {s : List Char} (h : asciiStr s) :
    sizeAt s s.length = 0 := by
  unfold sizeAt
  have := byteDrop_utf8Len s
  rw [ascii_utf8Len h] at this
  rw [this]

theorem mlookup_minsert_ne {m : BMap} {k v k' : Nat} (h : k' ≠ k) :
    mlookup (minsert m k v) k' = mlookup m k' := by
  induction m with
  | nil => simp [minsert, mlookup, h]
  | cons p t ih =>
    rcases p with ⟨a, b⟩
    unfold minsert
    by_cases h1 : k < a
    · rw [if_pos h1]
      simp only [mlookup, if_neg h]
    · rw [if_neg h1]
      by_cases h2 : k = a
      · rw [if_pos h2]
        simp only [mlookup]
        rw [if_neg (h2 ▸ h), if_neg (h2 ▸ h)]
      · rw [if_neg h2]
        simp only [mlookup]
        by_cases h3 : k' = a
        · rw [if_pos h3, if_pos h3]
        · rw [if_neg h3, if_neg h3]
          exact ih

theorem minsert_pos {m : BMap} {k v : Nat} (hm : ∀ p ∈ m, 0 < p.2)
    (hv : 0 < v) : ∀ p ∈ minsert m k v, 0 < p.2 := by
  induction m with
  | nil =>
    intro p hp
    simp only [minsert, List.mem_cons, List.not_mem_nil, or_false] at hp
    subst hp
    exact hv
  | cons q t ih =>
    rcases q with ⟨a, b⟩
    intro p hp
    unfold minsert at hp
    by_cases h1 : k < a
    · rw [if_pos h1] at hp
      rw [List.mem_cons, List.mem_cons] at hp
      rcases hp with hp | hp | hp
      · subst hp; exact hv
      · subst hp; exact hm _ (by simp)
      · exact hm _ (by simp [hp])
    · rw [if_neg h1] at hp
      by_cases h2 : k = a
      · rw [if_pos h2] at hp
        rw [List.mem_cons] at hp
        rcases hp with hp | hp
        · subst hp; exact hv
        · exact hm _ (by simp [hp])
      · rw [if_neg h2] at hp
        rw [List.mem_cons] at hp
        rcases hp with hp | hp
        · subst hp; exact hm _ (by simp)
        · exact ih (fun x hx => hm x (by simp [hx])) _ hp

theorem mlookup_isSome_of_mem {m : BMap} {k v : Nat} (h : (k, v) ∈ m) :
    (mlookup m k).isSome = true := by
  induction m with
  | nil => cases h
  | cons p t ih =>
    rcases p with ⟨a, b⟩
    rw [List.mem_cons] at h
    rcases h with h | h
    · injection h with h1 h2
      simp [mlookup, h1.symm]
    · unfold mlookup
      by_cases hk : k = a
      · rw [if_pos hk]; rfl
      · rw [if_neg hk]
        exact ih h

/-- The forward unit orbit from an arbitrary start offset (first step
innermost): the specification-side description of the `for _ in 0..r` walk
of `RunningText::new`. -/
def orbitFrom (lb : BMap) (s : List Char) (o : Nat) : Nat → Nat
  | 0 => o
  | n + 1 => orbitFrom lb s (orbitStep lb s o) n

theorem walkLoop_succ (L r off : Nat) (rest : List Char) (lb rb : BMap) :
    walkLoop L (r + 1) off rest lb rb =
      match mlookup lb off with
      | some 0 => none
      | some (len + 1) =>
        walkLoop L r (off + utf8Len (rest.take (len + 1)))
          (rest.drop (len + 1)) (minsert lb (off + L) (len + 1))
          (minsert rb (off + L + (len + 1)) (len + 1))
      | none =>
        match rest with
        | [] => walkLoop L r off [] lb rb
        | c :: t => walkLoop L r (off + charSize c) t lb rb := rfl

theorem walkLoop_run {L r off : Nat} {rest : List Char} {lb rb : BMap}
    {len : Nat} (hm : mlookup lb off = some (len + 1)) :
    walkLoop L (r + 1) off rest lb rb =
      walkLoop L r (off + utf8Len (rest.take (len + 1))) (rest.drop (len + 1))
        (minsert lb (off + L) (len + 1))
        (minsert rb (off + L + (len + 1)) (len + 1)) := by
  rw [walkLoop_succ, hm]

theorem walkLoop_char {L r off : Nat} {c : Char} {t : List Char}
    {lb rb : BMap} (hm : mlookup lb off = none) :
    walkLoop L (r + 1) off (c :: t) lb rb =
      walkLoop L r (off + charSize c) t lb rb := by
  rw [walkLoop_succ, hm]

theorem walkLoop_stall {L r off : Nat} {lb rb : BMap}
    (hm : mlookup lb off = none) :
    walkLoop L (r + 1) off [] lb rb = walkLoop L r off [] lb rb := by
  rw [walkLoop_succ, hm]

/-- The `r`-walk of `RunningText::new` computes exactly the orbit offset:
the map insertions performed during the walk target keys at or beyond the
replicated text's length and never affect later lookups below it. -/
theorem walkLoop_orbit {s2 : List Char} {lb : BMap}
    (hascii : asciiStr s2)
    (hwf : ∀ p ∈ lb, 0 < p.2 ∧ p.1 + p.2 ≤ s2.length) :
    ∀ (r off : Nat) (lb' rb' : BMap),
      off ≤ s2.length →
      (∀ k, k < s2.length → mlookup lb' k = mlookup lb k) →
      (∀ p ∈ lb', 0 < p.2) →
      ∃ lb'' rb'', walkLoop (utf8Len s2) r off (s2.drop off) lb' rb' =
        some (orbitFrom lb s2 off r, lb'', rb'') := by
  intro r
  induction r with
  | zero =>
    intro off lb' rb' _ _ _
    exact ⟨lb', rb', rfl⟩
  | succ n ih =>
    intro off lb' rb' hoff hagree hpos
    by_cases hlt : off < s2.length
    · have hag := hagree off hlt
      rcases hm : mlookup lb off with _ | len
      · -- character step
        have hm' : mlookup lb' off = none := by rw [hag, hm]
        rcases hd : s2.drop off with _ | ⟨c, t⟩
        · exfalso
          have hld := List.length_drop off s2
          rw [hd] at hld
          simp at hld
          omega
        · have hc : charSize c = 1 :=
            hascii c (List.drop_subset off s2 (by rw [hd]; simp))
          have hstep : orbitStep lb s2 off = off + 1 := by
            unfold orbitStep
            rw [hm, ascii_sizeAt hascii hlt]
          have hrest : t = s2.drop (off + 1) := by
            have h1 : (s2.drop off).drop 1 = s2.drop (off + 1) :=
              List.drop_drop 1 off s2
            rw [← h1, hd]
            rfl
          have hih := ih (off + 1) lb' rb' (by omega) hagree hpos
          rw [walkLoop_char hm', hc, hrest]
          rw [show orbitFrom lb s2 off (n + 1) =
            orbitFrom lb s2 (off + 1) n from by
              show orbitFrom lb s2 (orbitStep lb s2 off) n = _
              rw [hstep]]
          exact hih
      · -- run step
        obtain ⟨hlen, hbound⟩ := hwf _ (mlookup_mem hm)
        have hlen2 : 0 < len := hlen
        have hbound2 : off + len ≤ s2.length := hbound
        have hm' : mlookup lb' off = some len := by rw [hag, hm]
        rcases len with _ | k
        · omega
        · have hstep : orbitStep lb s2 off = off + (k + 1) := by
            unfold orbitStep
            rw [hm]
          have htake : utf8Len ((s2.drop off).take (k + 1)) = k + 1 := by
            have hsub : asciiStr ((s2.drop off).take (k + 1)) := fun x hx =>
              hascii x (List.drop_subset off s2 (List.take_subset _ _ hx))
            rw [ascii_utf8Len hsub, List.length_take, List.length_drop]
            omega
          have hrest : (s2.drop off).drop (k + 1) = s2.drop (off + (k + 1)) :=
            List.drop_drop (k + 1) off s2
          have hins : ∀ kk, kk < s2.length →
              mlookup (minsert lb' (off + utf8Len s2) (k + 1)) kk =
              mlookup lb kk := by
            intro kk hk
            rw [mlookup_minsert_ne]
            · exact hagree kk hk
            · have := ascii_utf8Len hascii
              omega
          have hih := ih (off + (k + 1))
            (minsert lb' (off + utf8Len s2) (k + 1))
            (minsert rb' (off + utf8Len s2 + (k + 1)) (k + 1))
            (by omega) hins (minsert_pos hpos (by omega))
          rw [walkLoop_run hm', htake, hrest]
          rw [show orbitFrom lb s2 off (n + 1) =
            orbitFrom lb s2 (off + (k + 1)) n from by
              show orbitFrom lb s2 (orbitStep lb s2 off) n = _
              rw [hstep]]
          exact hih
    · -- the walk has reached the end of the text and stalls there
      have hoffL : off = s2.length := by omega
      have hdrop : s2.drop off = [] := by
        rw [hoffL, List.drop_length]
      have horb : orbitStep lb s2 off = off := by
        unfold orbitStep
        rcases hm : mlookup lb off with _ | len
        · show off + sizeAt s2 off = off
          rw [hoffL, ascii_sizeAt_len hascii]
          omega
        · show off + len = off
          obtain ⟨hp1, hp2⟩ := hwf _ (mlookup_mem hm)
          have hp1a : 0 < len := hp1
          have hp2a : off + len ≤ s2.length := hp2
          omega
      have horbF : orbitFrom lb s2 off (n + 1) = orbitFrom lb s2 off n := by
        show orbitFrom lb s2 (orbitStep lb s2 off) n = _
        rw [horb]
      rcases hm' : mlookup lb' off with _ | len
      · have hih := ih off lb' rb' hoff hagree hpos
        rw [hdrop, walkLoop_stall hm', horbF, ← hdrop]
        exact hih
      · rcases len with _ | k
        · have hzero := hpos _ (mlookup_mem hm')
          have hzero2 : (0 : Nat) < 0 := hzero
          omega
        · have hins : ∀ kk, kk < s2.length →
              mlookup (minsert lb' (off + utf8Len s2) (k + 1)) kk =
              mlookup lb kk := by
            intro kk hk
            rw [mlookup_minsert_ne]
            · exact hagree kk hk
            · have := ascii_utf8Len hascii
              omega
          have hih := ih off (minsert lb' (off + utf8Len s2) (k + 1))
            (minsert rb' (off + utf8Len s2 + (k + 1)) (k + 1))
            hoff hins (minsert_pos hpos (by omega))
          rw [hdrop, walkLoop_run hm']
          show ∃ lb'' rb'', walkLoop (utf8Len s2) n off []
            (minsert lb' (off + utf8Len s2) (k + 1))
            (minsert rb' (off + utf8Len s2 + (k + 1)) (k + 1)) =
            some (orbitFrom lb s2 off (n + 1), lb'', rb'')
          rw [horbF, ← hdrop]
          exact hih

/-- Pairwise disjointness of the recorded runs. -/
def runsDisjoint (lb : BMap) : Prop :=
  ∀ p ∈ lb, ∀ p' ∈ lb, p ≠ p' → p.1 + p.2 ≤ p'.1 ∨ p'.1 + p'.2 ≤ p.1

/-- The walk's cut never falls strictly inside a recorded run when the runs
are pairwise disjoint (single-byte text). -/
theorem orbitFrom_not_inside {s2 : List Char} {lb : BMap}
    (hascii : asciiStr s2)
    (hwf : ∀ p ∈ lb, 0 < p.2 ∧ p.1 + p.2 ≤ s2.length)
    (hdis : runsDisjoint lb) :
    ∀ (n o : Nat), o ≤ s2.length →
      (∀ p ∈ lb, ¬(p.1 < o ∧ o < p.1 + p.2)) →
      (∀ p ∈ lb, ¬(p.1 < orbitFrom lb s2 o n ∧
        orbitFrom lb s2 o n < p.1 + p.2)) ∧
      orbitFrom lb s2 o n ≤ s2.length := by
  intro n
  induction n with
  | zero => exact fun o ho hinv => ⟨hinv, ho⟩
  | succ k ih =>
    intro o ho hinv
    have hunf : orbitFrom lb s2 o (k + 1) =
        orbitFrom lb s2 (orbitStep lb s2 o) k := rfl
    rw [hunf]
    rcases hm : mlookup lb o with _ | len
    · -- character step (or stall at the end)
      by_cases hlt : o < s2.length
      · have hstep : orbitStep lb s2 o = o + 1 := by
          unfold orbitStep
          rw [hm, ascii_sizeAt hascii hlt]
        rw [hstep]
        refine ih (o + 1) (by omega) ?_
        rintro ⟨p1, p2⟩ hp ⟨h1, h2⟩
        have h3 := hinv ⟨p1, p2⟩ hp
        by_cases hq : p1 = o
        · subst hq
          have hsm := mlookup_isSome_of_mem hp
          rw [hm] at hsm
          exact Bool.noConfusion hsm
        · exact h3 ⟨by omega, by omega⟩
      · have hoL : o = s2.length := by omega
        have hstep : orbitStep lb s2 o = o := by
          unfold orbitStep
          rw [hm]
          show o + sizeAt s2 o = o
          rw [hoL, ascii_sizeAt_len hascii]
          omega
        rw [hstep]
        exact ih o ho hinv
    · -- run step: jump to the end of the run `(o, len)`
      have hmem : (o, len) ∈ lb := mlookup_mem hm
      obtain ⟨hlen, hbound⟩ := hwf _ hmem
      have hlen2 : 0 < len := hlen
      have hbound2 : o + len ≤ s2.length := hbound
      have hstep : orbitStep lb s2 o = o + len := by
        unfold orbitStep
        rw [hm]
      rw [hstep]
      refine ih (o + len) (by omega) ?_
      rintro ⟨p1, p2⟩ hp ⟨h1, h2⟩
      by_cases hq : (p1, p2) = (o, len)
      · injection hq with hq1 hq2
        subst hq1
        subst hq2
        omega
      · rcases hdis ⟨p1, p2⟩ hp (o, len) hmem hq with hd | hd
        · have hd2 : p1 + p2 ≤ o := hd
          omega
        · have hd2 : o + len ≤ p1 := hd
          omega

/-- C5 (amended): in repeating mode — with `char_count` the code's count,
`q = (w-1)/char_count`, `r = (w-1)%char_count` — the stored backing text is
the transformed text doubled `q` times (`2^q` full copies, not `q + 1`),
followed by the prefix of the replicated text up to the offset reached by
walking `r` logical units from its start (a recorded run crossed whole);
when the recorded runs are pairwise disjoint and the text is single-byte,
that cut never falls strictly inside a recorded run. -/
theorem c5_backing_text :
    ∀ s w rp esc rt text lb1 rb1,
      RunningText.new s w rp esc = some rt →
      rt.repeat_ = true →
      applyEscapesLoop true esc s [] [] = some (text, lb1, rb1) →
      ∀ q r s2 lb2,
        q = (w - 1) / (s.length - ccShrink esc) →
        r = (w - 1) % (s.length - ccShrink esc) →
        s2 = doubleTimes q text →
        lb2 = rescanLeft s2 esc lb1 →
        asciiStr s2 →
        (∀ p ∈ lb2, 0 < p.2 ∧ p.1 + p.2 ≤ s2.length) →
        runsDisjoint lb2 →
        s2 = replicateText (2 ^ q) text ∧
        ∃ pre, byteTake s2 (orbitFrom lb2 s2 0 r) = some pre ∧
          rt.s = s2 ++ pre ∧
          ∀ p ∈ lb2, ¬(p.1 < orbitFrom lb2 s2 0 r ∧
            orbitFrom lb2 s2 0 r < p.1 + p.2) := by
  intro s w rp esc rt text lb1 rb1 h hrep happ q r s2 lb2 hq hr hs2 hlb2
    hascii hwf hdis
  unfold RunningText.new at h
  by_cases h1 : s.length < ccShrink esc
  · simp [h1] at h
  · simp only [h1, if_false] at h
    by_cases h2 : w = 0
    · simp [h2] at h
    · simp only [h2, if_false] at h
      by_cases h3 : s.length - ccShrink esc = 0
      · simp [h3] at h
      · simp only [h3, if_false] at h
        rcases he : applyEscapesLoop (rp || decide (w < s.length - ccShrink esc))
            esc s [] [] with _ | ⟨s1, lb1', rb1'⟩
        · simp only [he] at h
          exact Option.noConfusion h
        · simp only [he] at h
          by_cases h4 : (rp || decide (w < s.length - ccShrink esc)) = false
          · rw [if_pos h4, Option.some_inj] at h
            rw [← h] at hrep
            simp at hrep
          · rw [if_neg h4] at h
            have hrepT : (rp || decide (w < s.length - ccShrink esc)) = true := by
              cases hx : (rp || decide (w < s.length - ccShrink esc))
              · exact absurd hx h4
              · rfl
            rw [hrepT] at he
            rw [happ] at he
            rw [Option.some_inj] at he
            injection he with heq1 heq2
            injection heq2 with heq2 heq3
            subst heq1
            subst heq2
            subst heq3
            rw [← hq, ← hr, ← hs2] at h
            have hLlen : utf8Len s2 = s2.length := ascii_utf8Len hascii
            obtain ⟨lb3, rb3, hwalk⟩ :=
              walkLoop_orbit hascii hwf r 0
                (rescanLeft s2 esc lb1) (rescanRight s2 esc rb1)
                (by omega)
                (fun k _ => by rw [hlb2])
                (fun p hp => (hwf p (by rw [hlb2]; exact hp)).1)
            rw [show s2.drop 0 = s2 from List.drop_zero s2] at hwalk
            simp only [hwalk] at h
            have hinv0 : ∀ p ∈ lb2, ¬(p.1 < 0 ∧ (0 : Nat) < p.1 + p.2) := by
              intro p _ hc
              omega
            have hsafe := orbitFrom_not_inside hascii hwf hdis r 0
              (by omega) hinv0
            have hbd : (byteDrop s2 (orbitFrom lb2 s2 0 r)).isSome = true := by
              rw [ascii_byteDrop hascii _ hsafe.2]
              rfl
            have hbt := byteTake_isSome_of_byteDrop s2 _ hbd
            rcases hpre : byteTake s2 (orbitFrom lb2 s2 0 r) with _ | pre
            · rw [hpre] at hbt
              exact Bool.noConfusion hbt
            · simp only [hpre, Option.some_inj] at h
              refine ⟨by rw [hs2, doubleTimes_replicate], pre, rfl, ?_, hsafe.1⟩
              rw [← h]

/-- The `RunningText` of the C5 witness configuration (the C1 content and
rule: `q = 0`, `r = 11`). -/
def c5wrt : RunningText :=
  (RunningText.new c1s 12 true c1esc).getD junkRT

/-- Witness for `c5_backing_text` at content `"?#@!$%^^&*()"`, rule
`"&" → "&amp"`, width 12. -/
theorem c5_backing_text_witness :
    ("?#@!$%^^&amp*()".toList : List Char) =
      replicateText (2 ^ 0) "?#@!$%^^&amp*()".toList ∧
    ∃ pre, byteTake "?#@!$%^^&amp*()".toList
        (orbitFrom [(8, 4)] "?#@!$%^^&amp*()".toList 0 11) = some pre ∧
      c5wrt.s = "?#@!$%^^&amp*()".toList ++ pre ∧
      ∀ p ∈ ([(8, 4)] : BMap),
        ¬(p.1 < orbitFrom [(8, 4)] "?#@!$%^^&amp*()".toList 0 11 ∧
          orbitFrom [(8, 4)] "?#@!$%^^&amp*()".toList 0 11 < p.1 + p.2) :=
  c5_backing_text c1s 12 true c1esc c5wrt "?#@!$%^^&amp*()".toList
    [(8, 4)] [(12, 4)] rfl rfl rfl 0 11 "?#@!$%^^&amp*()".toList [(8, 4)]
    (by decide) (by decide) rfl rfl
    (by unfold asciiStr; decide) (by decide)
    (by unfold runsDisjoint; decide)

/-! ## C3: bidirectional symmetry -/

/-- The C3 failing configuration: content `"a"`, rules
`[("a", "xyzw"), ("c", "zw")]`, width 2, repeat.  The second rule never
matches, but the re-scan records every occurrence of its replacement text
`"zw"` inside the first rule's replacement — and both runs end at the same
offsets, so the `right_escape_bounds` entries collide and the first rule's
entries are overwritten. -/
def c3rt? : Option RunningText :=
  RunningText.new "a".toList 2 true
    [("a".toList, "xyzw".toList), ("c".toList, "zw".toList)]

/-- The iterator of the C3 configuration. -/
def c3it : RunIter :=
  (c3rt?.bind RunningText.iter).getD ⟨[], 0, 0, [], [], ⟨0, false⟩, ⟨0, false⟩⟩

/-- C3 (code-bug witness): the forward sequence is constantly
`"xyzwxyzw"` (the iterator state after call 2 equals the state after call 1,
so the single checked window value repeats forever), while the second
`next_back()` call yields `"yzw"` — a window that splits the recorded run
`[4, 8)` and never occurs forward, so the backward sequence is not the
reverse of the forward cycle. -/
theorem c3_backward_asymmetry :
    c3rt?.bind RunningText.iter = some c3it ∧
    outN RunIter.next 0 c3it = some ((0, 8), "xyzwxyzw".toList) ∧
    outN RunIter.next 1 c3it = some ((0, 8), "xyzwxyzw".toList) ∧
    iterN RunIter.next 2 c3it = iterN RunIter.next 1 c3it ∧
    outN RunIter.nextBack 0 c3it = some ((0, 8), "xyzwxyzw".toList) ∧
    outN RunIter.nextBack 1 c3it = some ((5, 8), "yzw".toList) ∧
    ((c3rt?.map RunningText.left_escape_bounds).getD []).contains (4, 4) =
      true ∧
    (("xyzwxyzw".toList : List Char) = "yzw".toList) = False := by
  refine ⟨rfl, rfl, rfl, by decide, rfl, rfl, rfl, ?_⟩
  simp

/-- C10: for every input string and replacement, `replace_newline` produces
exactly the UTF-8 encoding of the string obtained by first deleting every
`'\r'` and then replacing every `'\n'` by the replacement (deleting it when
the replacement is empty), all other characters preserved in order — in
particular the buffer left behind by the unsafe in-place byte shuffle is
valid UTF-8. -/
theorem c10_replace_newline (text replacement : List Char) :
    replace_newline text replacement =
      utf8Encode ((text.filter fun c => !(c = '\r' : Bool)).foldr
        (fun c acc => (if c = '\n' then replacement else [c]) ++ acc) []) := by
  unfold replace_newline
  by_cases hrep : replacement.isEmpty
  · rw [if_pos hrep]
    have hrepNil : replacement = [] := by
      cases replacement
      · rfl
      · simp [List.isEmpty] at hrep
    subst hrepNil
    congr 1
    induction (text.filter fun c => !(c = '\r' : Bool)) with
    | nil => rfl
    | cons c t ih =>
      by_cases hc : c = '\n'
      · subst hc
        simp [List.filter, ih]
      · have : (!(c = '\n' : Bool)) = true := by
          simp [hc]
        simp only [List.filter, this, List.foldr_cons, if_neg hc]
        rw [ih]
        rfl
  · rw [if_neg hrep]
    exact rnCore_encode replacement _

/-- Witness for `c4_mode_selection` at content `"ab"`, width 5,
`repeat = false`, no rules (fits mode). -/
theorem c4_mode_selection_witness :
    c4wrt.repeat_ = (false || decide (5 < "ab".toList.length - ccShrink [])) ∧
    (c4wrt.repeat_ = false →
      some c4wrt.s = (applyEscapesLoop false [] "ab".toList [] []).map Prod.fst) ∧
    (false = false → 5 + 1 = "ab".toList.length - ccShrink [] →
      c4wrt.repeat_ = true) :=
  c4_mode_selection "ab".toList 5 false [] c4wrt rfl

end Mergneh
